import Mathlib

/-!
Verification of the yagc generic key-value cache (package `cache`).

The Go source is shallowly embedded:
- a Go `map[K]V` becomes an association list `List (K × V)` whose key
  uniqueness is maintained by the faithful update operation `mapPut`;
  `v, ok := m[k]` becomes `mapGetD`, `delete(m, k)` becomes `mapErase`;
- the `Policy` interface with its three implementations (`Always`, `Never`,
  `Batched`, file policy.go) becomes the inductive `Policy` with `Trigger`
  returning the result together with the updated policy state; Go's `int`
  counter is carried as an `Int`, with `Trigger` incrementing it unbounded
  (exact on the non-wrapping regime) and `TriggerWrap` incrementing it with
  int64 two's-complement wraparound (bit-precise);
- the `Persistence` interface (`File`, `Console`, `Discard`, file
  persistence.go) becomes the inductive `Backend` over an abstract byte
  type `B`, with `Write`/`Read` returning `Except String` as Go's `error`
  and the possibility of an underlying I/O fault carried in the backend
  state;
- `Cache[K, V]` (file cache.go) becomes the structure `Cache K V B`; the
  mutex and the optional logger have no effect on results or state visible
  here and are omitted; every mutating method returns its Go results
  together with the updated cache state.
-/

/-- The flush `Policy` interface together with its three implementations
(policy.go): `Always`, `Never`, and `Batched` with its `Size` threshold and
private `count` counter. -/
inductive Policy where
  | Always : Policy
  | Never : Policy
  | Batched (Size : Int) (count : Int) : Policy
  deriving DecidableEq, Repr

/-- `Trigger()` of each policy (policy.go). `Batched.Trigger` increments
`count`, and when it equals `Size` resets it to 0 and returns true. The
updated policy state is returned alongside the boolean. The unbounded
increment here is the abstraction of Go's `int` counter, exact as long as
the counter stays inside the machine range — which it does whenever
`0 < Size < 2^63`, where the counter remains in `[0, Size)`; `TriggerWrap`
below is the bit-precise variant whose increment wraps like Go's int64. -/
def Policy.Trigger : Policy → Bool × Policy
  | .Always => (true, .Always)
  | .Never => (false, .Never)
  | .Batched size count =>
    let c := count + 1
    if c = size then (true, .Batched size 0)
    else (false, .Batched size c)

/-- The policy state after `m` successive `Trigger()` calls. -/
def Policy.runTrigger (p : Policy) : Nat → Policy
  | 0 => p
  | m + 1 => ((p.runTrigger m).Trigger).2

/-- The boolean returned by the `(m+1)`-th `Trigger()` call (0-indexed `m`). -/
def Policy.nthTrigger (p : Policy) (m : Nat) : Bool :=
  ((p.runTrigger m).Trigger).1

/-- Two's-complement wraparound of Go's `int` on 64-bit platforms: the
unique value in `[-2^63, 2^63)` congruent to `x` modulo `2^64` (written
with the literals 2^63 = 9223372036854775808 and
2^64 = 18446744073709551616). -/
def wrap64 (x : Int) : Int :=
  (x + 9223372036854775808) % 18446744073709551616 - 9223372036854775808

/-- `Trigger()` with `b.count++` performed at Go int (int64) precision:
identical to `Trigger` except that the increment wraps around on
overflow, as Go's signed integers do. -/
def Policy.TriggerWrap : Policy → Bool × Policy
  | .Always => (true, .Always)
  | .Never => (false, .Never)
  | .Batched size count =>
    let c := wrap64 (count + 1)
    if c = size then (true, .Batched size 0)
    else (false, .Batched size c)

/-- The policy state after `m` successive wrapped `Trigger()` calls. -/
def Policy.runTriggerWrap (p : Policy) : Nat → Policy
  | 0 => p
  | m + 1 => ((p.runTriggerWrap m).TriggerWrap).2

/-- The boolean returned by the `(m+1)`-th wrapped `Trigger()` call
(0-indexed `m`). -/
def Policy.nthTriggerWrap (p : Policy) (m : Nat) : Bool :=
  ((p.runTriggerWrap m).TriggerWrap).1

section MapModel

variable {K V : Type} [DecidableEq K]

/-- Go map read `v, ok := m[k]` without the zero-value default: the value at
the first matching key, if any. -/
def mapGet (s : List (K × V)) (k : K) : Option V :=
  match s with
  | [] => none
  | (k1, v1) :: rest => if k1 = k then some v1 else mapGet rest k

/-- Go map read `v, ok := m[k]`: the stored value and `true`, or the zero
value (`default`) and `false`. -/
def mapGetD [Inhabited V] (s : List (K × V)) (k : K) : V × Bool :=
  match mapGet s k with
  | some v => (v, true)
  | none => (default, false)

/-- Go map write `m[k] = v`: replace the value at `k` if present, append the
binding otherwise. -/
def mapPut (s : List (K × V)) (k : K) (v : V) : List (K × V) :=
  match s with
  | [] => [(k, v)]
  | (k1, v1) :: rest =>
    if k1 = k then (k1, v) :: rest else (k1, v1) :: mapPut rest k v

/-- Go `delete(m, k)`: remove the bindings of key `k`. -/
def mapErase (s : List (K × V)) (k : K) : List (K × V) :=
  s.filter (fun p => p.1 ≠ k)

end MapModel

/-- The `Persistence` interface with its implementations (persistence.go):
`File` (whose durable contents are modelled as `Option B`, `none` while the
file does not exist yet), `Console` (write-only sink) and `Discard`.
`File.Write` delegates to `os.WriteFile` and `Console.Write` returns
`fmt.Fprintf`'s error, so both can fail on an underlying I/O fault; the
fault is part of the environment, modelled as an optional pending error
carried by the backend state (`none` = healthy I/O). -/
inductive Backend (B : Type) where
  | File (contents : Option B) (fault : Option String)
  | Console (fault : Option String)
  | Discard
  deriving DecidableEq, Repr

/-- `Write(data)` of each backend: `File.Write` replaces the file contents
(`os.WriteFile`) and `Console.Write` prints, keeping nothing readable; both
return the I/O error when their sink is faulty. `Discard.Write` is a no-op
that never fails. The updated backend state is returned alongside Go's
`error`. -/
def Backend.Write {B : Type} : Backend B → B → Except String (Backend B)
  | .File _ (some e), _ => .error e
  | .File _ none, data => .ok (.File (some data) none)
  | .Console (some e), _ => .error e
  | .Console none, _ => .ok (.Console none)
  | .Discard, _ => .ok .Discard

/-- `Read()` of each backend: `File.Read` returns the contents
(`os.ReadFile`, an error when the file does not exist); `Console.Read` and
`Discard.Read` always return the "not implemented" error. -/
def Backend.Read {B : Type} : Backend B → Except String B
  | .File (some data) _ => .ok data
  | .File none _ => .error "no data"
  | .Console _ => .error "not implemented"
  | .Discard => .error "not implemented"

/-- `Cache[K, V]` (cache.go): the in-memory mapping together with the three
pluggable strategies. The `Encoding` interface is embedded as the two
function fields `encode`/`decode` over the abstract byte type `B`. The
mutex serialises operations and the optional logger only logs; neither
affects the sequential results modelled here. -/
structure Cache (K V B : Type) where
  store : List (K × V)
  policy : Policy
  backend : Backend B
  encode : List (K × V) → Except String B
  decode : B → Except String (List (K × V))

section CacheModel

variable {K V B : Type}

/-- The flush part of `storeNoLock` (cache.go lines 277-296): encode the
whole store, hand the bytes to the backend, propagate the first error. -/
def Cache.flushNow (c : Cache K V B) : Except String Unit × Cache K V B :=
  match c.encode c.store with
  | .error e => (.error e, c)
  | .ok data =>
    match c.backend.Write data with
    | .error e => (.error e, c)
    | .ok b1 => (.ok (), { c with backend := b1 })

/-- `storeNoLock(force)` (cache.go lines 264-297). The Go guard
`if !force && !c.policy.Trigger()` short-circuits: when `force` is true the
policy's `Trigger()` is not evaluated at all; otherwise `Trigger()` runs
exactly once, its state update is kept, and the flush happens only when it
returned true. -/
def Cache.storeNoLock (c : Cache K V B) (force : Bool) :
    Except String Unit × Cache K V B :=
  if force then c.flushNow
  else
    let r := c.policy.Trigger
    let c1 := { c with policy := r.2 }
    if r.1 then c1.flushNow else (.ok (), c1)

/-- `Put(k, v)` (cache.go lines 155-170): inserts only when the key is
absent, then runs `storeNoLock(false)` discarding its error and returns
true; when the key is present it returns false immediately. -/
def Cache.Put [DecidableEq K] (c : Cache K V B) (k : K) (v : V) :
    Bool × Cache K V B :=
  match mapGet c.store k with
  | none =>
    let c1 := { c with store := mapPut c.store k v }
    (true, (c1.storeNoLock false).2)
  | some _ => (false, c)

/-- `Replace(k, v)` (cache.go lines 175-188): reads the previous binding,
overwrites unconditionally, runs `storeNoLock(false)` discarding its error,
and returns the previous value (zero value if absent) and presence flag. -/
def Cache.Replace [DecidableEq K] [Inhabited V] (c : Cache K V B) (k : K)
    (v : V) : (V × Bool) × Cache K V B :=
  let old := mapGetD c.store k
  let c1 := { c with store := mapPut c.store k v }
  (old, (c1.storeNoLock false).2)

/-- `Get(k)` (cache.go lines 192-203): read-only lookup returning the value
(zero value if absent) and the presence flag. -/
def Cache.Get [DecidableEq K] [Inhabited V] (c : Cache K V B) (k : K) :
    V × Bool :=
  mapGetD c.store k

/-- `Delete(k)` (cache.go lines 207-220): reads the binding, removes the
key, runs `storeNoLock(false)` discarding its error, and returns the removed
value (zero value if absent) and whether it was present. -/
def Cache.Delete [DecidableEq K] [Inhabited V] (c : Cache K V B) (k : K) :
    (V × Bool) × Cache K V B :=
  let old := mapGetD c.store k
  let c1 := { c with store := mapErase c.store k }
  (old, (c1.storeNoLock false).2)

/-- `Size()` (cache.go lines 223-231). -/
def Cache.Size (c : Cache K V B) : Nat :=
  c.store.length

/-- `Clear()` (cache.go lines 234-245): empties the mapping and runs
`storeNoLock(false)` discarding its error. -/
def Cache.Clear (c : Cache K V B) : Cache K V B :=
  (({ c with store := ([] : List (K × V)) }).storeNoLock false).2

/-- `Keys()` (cache.go lines 248-259): the list of current keys. -/
def Cache.Keys (c : Cache K V B) : List K :=
  c.store.map Prod.fst

/-- `Pull(other)` (cache.go lines 77-98): fails with the "invalid cache"
error when `other` is nil; otherwise copies every key of `other` into this
cache via `Put` (so existing keys are preserved) and returns nil. -/
def Cache.Pull [DecidableEq K] [Inhabited V] (c : Cache K V B)
    (other : Option (Cache K V B)) :
    Except String Unit × Cache K V B :=
  match other with
  | none => (.error "invalid cache", c)
  | some o =>
    (.ok (), o.Keys.foldl (fun acc k => (acc.Put k (o.Get k).1).2) c)

/-- `Merge(other)` (cache.go lines 102-123): its body is identical to
`Pull`'s — nil check, then key-by-key `Put`. -/
def Cache.Merge [DecidableEq K] [Inhabited V] (c : Cache K V B)
    (other : Option (Cache K V B)) :
    Except String Unit × Cache K V B :=
  match other with
  | none => (.error "invalid cache", c)
  | some o =>
    (.ok (), o.Keys.foldl (fun acc k => (acc.Put k (o.Get k).1).2) c)

/-- `loadNoLock()` (cache.go lines 302-333): read from the backend, then
decode; either error is returned with the cache untouched; on success the
store is wholesale-replaced by the decoded mapping. -/
def Cache.loadNoLock (c : Cache K V B) : Except String Unit × Cache K V B :=
  match c.backend.Read with
  | .error e => (.error e, c)
  | .ok data =>
    match c.decode data with
    | .error e => (.error e, c)
    | .ok m => (.ok (), { c with store := m })

/-- `Load()` (cache.go lines 143-151): takes the write lock and delegates to
`loadNoLock`. -/
def Cache.Load (c : Cache K V B) : Except String Unit × Cache K V B :=
  c.loadNoLock

/-- `Store()` (cache.go lines 125-141): takes the read lock and delegates to
`storeNoLock(true)`, propagating its error. -/
def Cache.Store (c : Cache K V B) : Except String Unit × Cache K V B :=
  c.storeNoLock true

end CacheModel

/-- Modelled from the spec: the `GOB` strategy (encoding.go lines 76-97)
delegates to Go's `encoding/gob` Encoder/Decoder, standard-library code that
is not part of this repository's sources. Per the spec's contract for the
self-describing binary format (its sections 4.2 and 3), the whole mapping is
serialized executably — here for `Nat` keys and values — as the number of
bindings followed by the flattened key/value pairs. -/
def gobEncode (s : List (Nat × Nat)) : List Nat :=
  s.length :: s.foldr (fun p acc => p.1 :: p.2 :: acc) []

/-- Helper of `gobDecode`: read `n` key/value pairs off the byte stream,
returning them with the unread remainder; `none` on truncated input. -/
def gobDecodeLoop : Nat → List Nat → Option (List (Nat × Nat) × List Nat)
  | 0, rest => some ([], rest)
  | n + 1, k :: v :: rest =>
    (gobDecodeLoop n rest).map (fun r => ((k, v) :: r.1, r.2))
  | _ + 1, _ => none

/-- Modelled from the spec: inverse of `gobEncode` (see there); fails with a
deserialization error on empty, truncated or trailing input. -/
def gobDecode (data : List Nat) : Except String (List (Nat × Nat)) :=
  match data with
  | [] => .error "unexpected end of data"
  | n :: rest =>
    match gobDecodeLoop n rest with
    | some (m, []) => .ok m
    | _ => .error "malformed data"

/-- A concrete `Cache` instance used to evaluate the theorems below: one
binding `1 ↦ 10`, a `Batched{Size: 2}` policy, a fresh file backend, and the
modelled binary encoding. -/
def sampleCache : Cache Nat Nat (List Nat) :=
  { store := [(1, 10)]
    policy := .Batched 2 0
    backend := .File none none
    encode := fun s => .ok (gobEncode s)
    decode := gobDecode }

/-- A concrete `Cache` left at the constructor defaults that matter here:
`Discard` persistence and `Never` policy (cache.go lines 23-34). -/
def discardCache : Cache Nat Nat (List Nat) :=
  { store := [(1, 10)]
    policy := .Never
    backend := .Discard
    encode := fun s => .ok (gobEncode s)
    decode := gobDecode }

/-- A concrete `Cache` whose file backend holds the encoded mapping
`{7 ↦ 70, 8 ↦ 80}`, for exercising `Load()`. -/
def loadedCache : Cache Nat Nat (List Nat) :=
  { store := [(1, 10)]
    policy := .Never
    backend := .File (some (gobEncode [(7, 70), (8, 80)])) none
    encode := fun s => .ok (gobEncode s)
    decode := gobDecode }

/-- A concrete `Cache` with a `Batched{Size: 3}` policy whose counter is 0,
used to evaluate the policy-advance behaviour of `Put` on a present key. -/
def batchedCache : Cache Nat Nat (List Nat) :=
  { store := [(1, 10)]
    policy := .Batched 3 0
    backend := .File none none
    encode := fun s => .ok (gobEncode s)
    decode := gobDecode }

section MapLemmas

variable {K V : Type} [DecidableEq K]

theorem mapGet_mapPut (s : List (K × V)) (k : K) (v : V) (k' : K) :
    mapGet (mapPut s k v) k' = if k = k' then some v else mapGet s k' := by
  induction s with
  | nil => simp [mapPut, mapGet]
  | cons hd tl ih =>
    obtain ⟨k1, v1⟩ := hd
    by_cases h1 : k1 = k
    · subst h1
      by_cases h2 : k1 = k' <;> simp [mapPut, mapGet, h2]
    · by_cases h2 : k1 = k'
      · subst h2
        have hne : ¬ k = k1 := fun h => h1 h.symm
        simp [mapPut, mapGet, h1, hne]
      · simp [mapPut, mapGet, h1, h2, ih]

theorem mapGet_mapErase (s : List (K × V)) (k k' : K) :
    mapGet (mapErase s k) k' = if k = k' then none else mapGet s k' := by
  induction s with
  | nil => simp [mapErase, mapGet]
  | cons hd tl ih =>
    obtain ⟨k1, v1⟩ := hd
    by_cases h1 : k1 = k
    · subst h1
      by_cases h2 : k1 = k'
      · subst h2
        simpa [mapErase, mapGet] using ih
      · have : ¬ k1 = k' := h2
        simp [mapErase, mapGet, h2] at ih ⊢
        simpa [mapErase] using ih
    · by_cases h2 : k1 = k'
      · subst h2
        have hne : ¬ k = k1 := fun h => h1 h.symm
        simp [mapErase, mapGet, h1, hne]
      · simp [mapErase, mapGet, h1, h2] at ih ⊢
        simpa [mapErase] using ih

theorem mapErase_of_absent (s : List (K × V)) (k : K)
    (h : mapGet s k = none) : mapErase s k = s := by
  induction s with
  | nil => rfl
  | cons hd tl ih =>
    obtain ⟨k1, v1⟩ := hd
    by_cases h1 : k1 = k
    · rw [mapGet, if_pos h1] at h
      exact absurd h (by simp)
    · rw [mapGet, if_neg h1] at h
      have htl := ih h
      simp only [mapErase] at htl ⊢
      rw [List.filter_cons_of_pos (by simp [h1]), htl]

theorem mapGet_eq_none_iff (s : List (K × V)) (k : K) :
    mapGet s k = none ↔ k ∉ s.map Prod.fst := by
  induction s with
  | nil => simp [mapGet]
  | cons hd tl ih =>
    obtain ⟨k1, v1⟩ := hd
    by_cases h1 : k1 = k
    · rw [mapGet, if_pos h1]
      simp [h1]
    · rw [mapGet, if_neg h1, ih]
      have h2 : ¬ k = k1 := fun h => h1 h.symm
      simp [h2]

end MapLemmas

section CacheLemmas

variable {K V B : Type}

theorem flushNow_store (c : Cache K V B) : (c.flushNow).2.store = c.store := by
  rcases he : c.encode c.store with e | data
  · simp [Cache.flushNow, he]
  · rcases hw : c.backend.Write data with e | b1
    · simp [Cache.flushNow, he, hw]
    · simp [Cache.flushNow, he, hw]

theorem flushNow_policy (c : Cache K V B) :
    (c.flushNow).2.policy = c.policy := by
  rcases he : c.encode c.store with e | data
  · simp [Cache.flushNow, he]
  · rcases hw : c.backend.Write data with e | b1
    · simp [Cache.flushNow, he, hw]
    · simp [Cache.flushNow, he, hw]

theorem storeNoLock_store (c : Cache K V B) (force : Bool) :
    ((c.storeNoLock force).2).store = c.store := by
  rcases force with _ | _
  · simp only [Cache.storeNoLock, Bool.false_eq_true, if_false]
    rcases ht : c.policy.Trigger.1 with _ | _
    · simp [ht]
    · simp only [ht, if_true]
      rw [flushNow_store]
  · simp only [Cache.storeNoLock, if_true]
    exact flushNow_store c

theorem storeNoLock_false_policy (c : Cache K V B) :
    ((c.storeNoLock false).2).policy = (c.policy.Trigger).2 := by
  simp only [Cache.storeNoLock, Bool.false_eq_true, if_false]
  rcases ht : c.policy.Trigger.1 with _ | _
  · simp [ht]
  · simp only [ht, if_true]
    rw [flushNow_policy]

theorem Put_of_absent [DecidableEq K] (c : Cache K V B) (k : K) (v : V)
    (h : mapGet c.store k = none) :
    (c.Put k v).1 = true ∧
      (c.Put k v).2.store = mapPut c.store k v ∧
      (c.Put k v).2.policy = (c.policy.Trigger).2 := by
  simp only [Cache.Put, h]
  refine ⟨trivial, ?_, ?_⟩
  · rw [storeNoLock_store]
  · rw [storeNoLock_false_policy]

theorem Put_of_present [DecidableEq K] (c : Cache K V B) (k : K) (v v1 : V)
    (h : mapGet c.store k = some v1) :
    c.Put k v = (false, c) := by
  simp only [Cache.Put, h]

theorem Replace_eq [DecidableEq K] [Inhabited V] (c : Cache K V B) (k : K)
    (v : V) :
    (c.Replace k v).1 = mapGetD c.store k ∧
      (c.Replace k v).2.store = mapPut c.store k v ∧
      (c.Replace k v).2.policy = (c.policy.Trigger).2 := by
  refine ⟨rfl, ?_, ?_⟩
  · simp only [Cache.Replace]
    rw [storeNoLock_store]
  · simp only [Cache.Replace]
    rw [storeNoLock_false_policy]

theorem Delete_eq [DecidableEq K] [Inhabited V] (c : Cache K V B) (k : K) :
    (c.Delete k).1 = mapGetD c.store k ∧
      (c.Delete k).2.store = mapErase c.store k ∧
      (c.Delete k).2.policy = (c.policy.Trigger).2 := by
  refine ⟨rfl, ?_, ?_⟩
  · simp only [Cache.Delete]
    rw [storeNoLock_store]
  · simp only [Cache.Delete]
    rw [storeNoLock_false_policy]

theorem Clear_eq (c : Cache K V B) :
    (c.Clear).store = ([] : List (K × V)) ∧
      (c.Clear).policy = (c.policy.Trigger).2 := by
  constructor
  · simp only [Cache.Clear]
    rw [storeNoLock_store]
  · simp only [Cache.Clear]
    rw [storeNoLock_false_policy]

theorem Put_store_cases [DecidableEq K] (c : Cache K V B) (k : K) (v : V) :
    (c.Put k v).2.store =
      (match mapGet c.store k with
       | none => mapPut c.store k v
       | some _ => c.store) := by
  rcases h : mapGet c.store k with _ | v1
  · exact (Put_of_absent c k v h).2.1
  · rw [Put_of_present c k v v1 h]

end CacheLemmas

section PolicyLemmas

theorem emod_succ_eq (n m : Int) (hn : 0 < n) :
    (m + 1) % n = if m % n + 1 = n then 0 else m % n + 1 := by
  have h0 : 0 ≤ m % n := Int.emod_nonneg m (ne_of_gt hn)
  have h1 : m % n < n := Int.emod_lt_of_pos m hn
  have hqr : n * (m / n) + m % n = m := Int.ediv_add_emod m n
  by_cases hc : m % n + 1 = n
  · rw [if_pos hc]
    have hm1 : m + 1 = n * (m / n + 1) := by
      have : m + 1 = n * (m / n) + (m % n + 1) := by linarith
      rw [this, hc]
      ring
    rw [hm1]
    exact Int.mul_emod_right n (m / n + 1)
  · rw [if_neg hc]
    have hlt : m % n + 1 < n := lt_of_le_of_ne (by linarith) hc
    have hm1 : m + 1 = (m % n + 1) + n * (m / n) := by linarith
    rw [hm1, Int.add_mul_emod_self_left]
    exact Int.emod_eq_of_lt (by linarith) hlt

theorem batched_runTrigger_pos (n : Int) (hn : 0 < n) (m : Nat) :
    (Policy.Batched n 0).runTrigger m = .Batched n ((m : Int) % n) := by
  induction m with
  | zero =>
    simp [Policy.runTrigger]
  | succ m ih =>
    rw [Policy.runTrigger, ih]
    simp only [Policy.Trigger]
    have hsucc := emod_succ_eq n (m : Int) hn
    by_cases hc : (m : Int) % n + 1 = n
    · rw [if_pos hc]
      have : ((m : Int) + 1) % n = 0 := by rw [hsucc, if_pos hc]
      push_cast
      rw [this]
    · rw [if_neg hc]
      have : ((m : Int) + 1) % n = (m : Int) % n + 1 := by rw [hsucc, if_neg hc]
      push_cast
      rw [this]

theorem wrap64_add_left (a b : Int) : wrap64 (wrap64 a + b) = wrap64 (a + b) := by
  unfold wrap64
  omega

theorem batched_wrap_state (size : Int) (hs : size ≤ 0) (m : Nat)
    (hm : (m : Int) < size + 18446744073709551616) :
    (Policy.Batched size 0).runTriggerWrap m =
      .Batched size (wrap64 (m : Int)) := by
  induction m with
  | zero =>
    have h0 : wrap64 ((0 : Nat) : Int) = 0 := by
      unfold wrap64
      omega
    rw [Policy.runTriggerWrap, h0]
  | succ m ih =>
    have hm1 : ((m + 1 : Nat) : Int) = (m : Int) + 1 := by push_cast; ring
    have hm' : (m : Int) < size + 18446744073709551616 := by
      rw [hm1] at hm
      omega
    rw [Policy.runTriggerWrap, ih hm']
    simp only [Policy.TriggerWrap]
    rw [wrap64_add_left]
    have hne : ¬ (wrap64 ((m : Int) + 1) = size) := by
      rw [hm1] at hm
      have hm0 : (0 : Int) ≤ (m : Int) := Int.natCast_nonneg m
      unfold wrap64
      omega
    rw [if_neg hne, hm1]

theorem batched_wrap_false (size : Int) (hs : size ≤ 0) (m : Nat)
    (hm : (m : Int) + 1 < size + 18446744073709551616) :
    (Policy.Batched size 0).nthTriggerWrap m = false := by
  have hm' : (m : Int) < size + 18446744073709551616 := by omega
  rw [Policy.nthTriggerWrap, batched_wrap_state size hs m hm']
  simp only [Policy.TriggerWrap]
  rw [wrap64_add_left]
  have hne : ¬ (wrap64 ((m : Int) + 1) = size) := by
    have hm0 : (0 : Int) ≤ (m : Int) := Int.natCast_nonneg m
    unfold wrap64
    omega
  rw [if_neg hne]

theorem batched_wrap_true (size : Int) (h1 : -9223372036854775808 ≤ size)
    (hs : size ≤ 0) (m : Nat)
    (hm : (m : Int) + 1 = size + 18446744073709551616) :
    (Policy.Batched size 0).nthTriggerWrap m = true := by
  have hm' : (m : Int) < size + 18446744073709551616 := by omega
  rw [Policy.nthTriggerWrap, batched_wrap_state size hs m hm']
  simp only [Policy.TriggerWrap]
  rw [wrap64_add_left]
  have heq : wrap64 ((m : Int) + 1) = size := by
    unfold wrap64
    omega
  rw [if_pos heq]

end PolicyLemmas

/-- Claim C1: for every key `k` and value `v`, if `k` is absent `Put(k, v)`
returns true and a subsequent `Get(k)` returns `(v, true)`; if `k` is
present with value `v1`, `Put(k, v2)` returns false and `Get(k)` still
returns `(v1, true)` — `Put` never overwrites an existing value. -/
theorem yagc_C1_put_only_if_absent {K V B : Type} [DecidableEq K]
    [Inhabited V] (c : Cache K V B) (k : K) (v : V) :
    (mapGet c.store k = none →
      (c.Put k v).1 = true ∧ ((c.Put k v).2).Get k = (v, true)) ∧
    (∀ v1, mapGet c.store k = some v1 →
      (c.Put k v).1 = false ∧ ((c.Put k v).2).Get k = (v1, true)) := by
  constructor
  · intro h
    obtain ⟨h1, h2, _⟩ := Put_of_absent c k v h
    refine ⟨h1, ?_⟩
    simp [Cache.Get, mapGetD, h2, mapGet_mapPut]
  · intro v1 h
    rw [Put_of_present c k v v1 h]
    exact ⟨rfl, by simp only [Cache.Get, mapGetD, h]⟩

/-- Witness for C1: in `sampleCache` (which holds `1 ↦ 10`), key 2 is
absent and key 1 is present with value 10. -/
theorem yagc_C1_witness :
    ((sampleCache.Put 2 20).1 = true ∧
      ((sampleCache.Put 2 20).2).Get 2 = (20, true)) ∧
    ((sampleCache.Put 1 99).1 = false ∧
      ((sampleCache.Put 1 99).2).Get 1 = (10, true)) :=
  ⟨(yagc_C1_put_only_if_absent sampleCache 2 20).1 rfl,
   (yagc_C1_put_only_if_absent sampleCache 1 99).2 10 rfl⟩

/-- Claim C2: for `Batched` with threshold `n > 0` and counter starting at
0, after `m` `Trigger()` calls the counter is `m % n`, and the `(m+1)`-th
call returns true exactly when `m + 1` is a multiple of `n` — every n-th
call triggers and resets the counter. -/
theorem yagc_C2_batched_every_nth (n : Int) (hn : 0 < n) (m : Nat) :
    (Policy.Batched n 0).runTrigger m = .Batched n ((m : Int) % n) ∧
    ((Policy.Batched n 0).nthTrigger m = true ↔ ((m : Int) + 1) % n = 0) := by
  refine ⟨batched_runTrigger_pos n hn m, ?_⟩
  rw [Policy.nthTrigger, batched_runTrigger_pos n hn m]
  simp only [Policy.Trigger]
  have hsucc := emod_succ_eq n (m : Int) hn
  have h0 : 0 ≤ (m : Int) % n := Int.emod_nonneg _ (ne_of_gt hn)
  by_cases hc : (m : Int) % n + 1 = n
  · rw [if_pos hc]
    simp only [true_iff]
    rw [hsucc, if_pos hc]
  · rw [if_neg hc]
    simp only [Bool.false_eq_true, false_iff]
    rw [hsucc, if_neg hc]
    omega

/-- Witness for C2: `Batched{Size: 3}` from counter 0, checked after two
calls — the third call (index `m = 2`) returns true. -/
theorem yagc_C2_witness :
    (0 : Int) < 3 ∧
    ((Policy.Batched 3 0).runTrigger 2 = .Batched 3 (((2 : Nat) : Int) % 3) ∧
      ((Policy.Batched 3 0).nthTrigger 2 = true ↔
        (((2 : Nat) : Int) + 1) % 3 = 0)) :=
  ⟨by decide, yagc_C2_batched_every_nth 3 (by decide) 2⟩

/-- Claim C7: `Delete(k)` on an absent key returns `(zeroValue, false)` and
leaves the mapping unchanged; on a key holding `v` it returns `(v, true)`
and a subsequent `Get(k)` returns `(zeroValue, false)`. -/
theorem yagc_C7_delete_semantics {K V B : Type} [DecidableEq K] [Inhabited V]
    (c : Cache K V B) (k : K) :
    (mapGet c.store k = none →
      (c.Delete k).1 = ((default : V), false) ∧
      (c.Delete k).2.store = c.store) ∧
    (∀ v, mapGet c.store k = some v →
      (c.Delete k).1 = (v, true) ∧
      ((c.Delete k).2).Get k = ((default : V), false)) := by
  obtain ⟨h1, h2, _⟩ := Delete_eq c k
  constructor
  · intro h
    refine ⟨?_, ?_⟩
    · rw [h1]
      simp [mapGetD, h]
    · rw [h2, mapErase_of_absent _ _ h]
  · intro v h
    refine ⟨?_, ?_⟩
    · rw [h1]
      simp [mapGetD, h]
    · simp [Cache.Get, mapGetD, h2, mapGet_mapErase]

/-- Witness for C7: in `sampleCache` (holding `1 ↦ 10`), deleting absent
key 2 and present key 1. -/
theorem yagc_C7_witness :
    ((sampleCache.Delete 2).1 = ((default : Nat), false) ∧
      (sampleCache.Delete 2).2.store = sampleCache.store) ∧
    ((sampleCache.Delete 1).1 = (10, true) ∧
      ((sampleCache.Delete 1).2).Get 1 = ((default : Nat), false)) :=
  ⟨(yagc_C7_delete_semantics sampleCache 2).1 rfl,
   (yagc_C7_delete_semantics sampleCache 1).2 10 rfl⟩

/-- Counterexample to claim C10 as stated: the claim says a `Batched`
policy with `Size ≤ 0` returns false on every `Trigger()` call, for any
number of calls, because the counter "only increases from 1 upward". Go's
`int` wraps on overflow, so the counter does not only increase: with
`Size = 0` it wraps negative at call 2^63, climbs back, and at call 2^64
(0-indexed m = 2^64 - 1 = 18446744073709551615) the increment yields 0,
which equals `Size` — `Trigger()` returns true. -/
theorem yagc_C10_counterexample :
    (0 : Int) ≤ 0 ∧
    (Policy.Batched 0 0).nthTriggerWrap 18446744073709551615 = true :=
  ⟨le_refl 0,
   batched_wrap_true 0 (by decide) (le_refl 0) 18446744073709551615
     (by decide)⟩

/-- Claim C10 as amended: for a `Batched` policy whose `Size` is zero or
negative (any such int64 value, so `-2^63 ≤ Size ≤ 0`), `Trigger()` returns
false on every call numbered below `Size + 2^64`, and the wrapped counter
reaches `Size` exactly at call number `Size + 2^64`, where `Trigger()`
returns true and resets — so the policy never flushes for any feasible
number of calls, but not literally never. -/
theorem yagc_C10_wrapped_nonpositive (size : Int)
    (h1 : -9223372036854775808 ≤ size) (h2 : size ≤ 0) (m : Nat) :
    (((m : Int) + 1 < size + 18446744073709551616) →
      (Policy.Batched size 0).nthTriggerWrap m = false) ∧
    (((m : Int) + 1 = size + 18446744073709551616) →
      (Policy.Batched size 0).nthTriggerWrap m = true) :=
  ⟨fun hm => batched_wrap_false size h2 m hm,
   fun hm => batched_wrap_true size h1 h2 m hm⟩

/-- Witness for the amended C10: `Batched{Size: 0}` at the sixth call,
far below the wraparound point. -/
theorem yagc_C10_witness :
    (-9223372036854775808 ≤ (0 : Int) ∧ (0 : Int) ≤ 0 ∧
      ((5 : Nat) : Int) + 1 < 0 + 18446744073709551616) ∧
    (Policy.Batched 0 0).nthTriggerWrap 5 = false :=
  ⟨⟨by decide, le_refl 0, by decide⟩,
   (yagc_C10_wrapped_nonpositive 0 (by decide) (le_refl 0) 5).1 (by decide)⟩

/-- Counterexample to claim C3 as stated: the claim says every call to
`Put` invokes the policy's `Trigger()` exactly once, advancing a
`Batched` counter by one even when the mutation changes nothing. But
`Put` on an already-present key (cache.go lines 161-169) returns false
without ever reaching `storeNoLock`: in `batchedCache` (store `1 ↦ 10`,
policy `Batched{Size: 3, count: 0}`), `Put(1, 99)` leaves the counter at
0, where the claim requires it to become 1. -/
theorem yagc_C3_counterexample :
    ((batchedCache.Put 1 99).2).policy = Policy.Batched 3 0 ∧
    Policy.Batched 3 0 ≠ Policy.Batched 3 1 :=
  ⟨rfl, by decide⟩

/-- Claim C3 as amended: `Trigger()` is invoked exactly once per `Replace`,
`Delete` (even of an absent key) and `Clear` call, and per `Put` call whose
key is absent (an insertion); a `Put` whose key is already present returns
without invoking `Trigger()` and leaves the whole cache, its policy counter
included, unchanged. -/
theorem yagc_C3_trigger_per_mutation {K V B : Type} [DecidableEq K]
    [Inhabited V] (c : Cache K V B) (k : K) (v : V) :
    (mapGet c.store k = none →
      (c.Put k v).2.policy = (c.policy.Trigger).2) ∧
    (∀ v1, mapGet c.store k = some v1 → (c.Put k v).2 = c) ∧
    (c.Replace k v).2.policy = (c.policy.Trigger).2 ∧
    (c.Delete k).2.policy = (c.policy.Trigger).2 ∧
    (c.Clear).policy = (c.policy.Trigger).2 := by
  refine ⟨?_, ?_, (Replace_eq c k v).2.2, (Delete_eq c k).2.2, (Clear_eq c).2⟩
  · intro h
    exact (Put_of_absent c k v h).2.2
  · intro v1 h
    have := Put_of_present c k v v1 h
    rw [this]

/-- Witness for the amended C3: in `sampleCache` (store `1 ↦ 10`), an
inserting `Put`, a present-key `Put`, and a `Delete` of an absent key. -/
theorem yagc_C3_witness :
    ((sampleCache.Put 2 20).2).policy = (sampleCache.policy.Trigger).2 ∧
    (sampleCache.Put 1 99).2 = sampleCache ∧
    ((sampleCache.Delete 7).2).policy = (sampleCache.policy.Trigger).2 :=
  ⟨(yagc_C3_trigger_per_mutation sampleCache 2 20).1 rfl,
   (yagc_C3_trigger_per_mutation sampleCache 1 99).2.1 10 rfl,
   (yagc_C3_trigger_per_mutation sampleCache 1 0).2.2.2.1⟩

/-- Claim C4: a failing policy-triggered flush is never propagated by
`Put`/`Replace`/`Delete`/`Clear` and never rolls the mutation back: the
operation's results and the resulting mapping are identical whatever
encoding and backend are plugged in (in particular ones that fail), and the
resulting mapping always reflects the mutation. -/
theorem yagc_C4_flush_failure_invisible {K V B : Type} [DecidableEq K]
    [Inhabited V] (c : Cache K V B) (k : K) (v : V)
    (e : List (K × V) → Except String B) (b : Backend B) :
    let c' : Cache K V B := { c with encode := e, backend := b }
    ((c.Put k v).1 = (c'.Put k v).1 ∧
      (c.Put k v).2.store = (c'.Put k v).2.store) ∧
    ((c.Replace k v).1 = (c'.Replace k v).1 ∧
      (c.Replace k v).2.store = (c'.Replace k v).2.store ∧
      (c.Replace k v).2.store = mapPut c.store k v) ∧
    ((c.Delete k).1 = (c'.Delete k).1 ∧
      (c.Delete k).2.store = (c'.Delete k).2.store ∧
      (c.Delete k).2.store = mapErase c.store k) ∧
    ((c.Clear).store = (c'.Clear).store ∧
      (c.Clear).store = ([] : List (K × V))) ∧
    (c.Put k v).2.store =
      (match mapGet c.store k with
       | none => mapPut c.store k v
       | some _ => c.store) := by
  intro c'
  have hstore : c'.store = c.store := rfl
  refine ⟨?_, ?_, ?_, ?_, Put_store_cases c k v⟩
  · rcases h : mapGet c.store k with _ | v1
    · obtain ⟨ha1, ha2, _⟩ := Put_of_absent c k v h
      obtain ⟨hb1, hb2, _⟩ := Put_of_absent c' k v h
      constructor
      · rw [ha1, hb1]
      · rw [ha2, hb2, hstore]
    · rw [Put_of_present c k v v1 h, Put_of_present c' k v v1 h]
      exact ⟨rfl, rfl⟩
  · obtain ⟨ha1, ha2, _⟩ := Replace_eq c k v
    obtain ⟨hb1, hb2, _⟩ := Replace_eq c' k v
    exact ⟨by rw [ha1, hb1], by rw [ha2, hb2, hstore], ha2⟩
  · obtain ⟨ha1, ha2, _⟩ := Delete_eq c k
    obtain ⟨hb1, hb2, _⟩ := Delete_eq c' k
    exact ⟨by rw [ha1, hb1], by rw [ha2, hb2, hstore], ha2⟩
  · obtain ⟨ha, _⟩ := Clear_eq c
    obtain ⟨hb, _⟩ := Clear_eq (K := K) (V := V) c'
    exact ⟨by rw [ha, hb], ha⟩

/-- Claim C6: when both the backend read and the decode succeed, `Load()`
returns nil and wholesale-replaces the in-memory mapping with exactly the
decoded one — nothing else of the cache changes, and no previously present
key survives unless the decoded mapping has it. -/
theorem yagc_C6_load_replaces_wholesale {K V B : Type} (c : Cache K V B)
    (data : B) (m : List (K × V))
    (hr : c.backend.Read = .ok data) (hd : c.decode data = .ok m) :
    c.Load = (.ok (), { c with store := m }) := by
  simp only [Cache.Load, Cache.loadNoLock, hr, hd]

/-- Witness for C6: `loadedCache`, whose file holds the encoding of
`{7 ↦ 70, 8 ↦ 80}`. -/
theorem yagc_C6_witness :
    loadedCache.backend.Read = .ok (gobEncode [(7, 70), (8, 80)]) ∧
    loadedCache.decode (gobEncode [(7, 70), (8, 80)]) =
      .ok [(7, 70), (8, 80)] ∧
    loadedCache.Load =
      (.ok (), { loadedCache with store := [(7, 70), (8, 80)] }) :=
  ⟨rfl, rfl,
   yagc_C6_load_replaces_wholesale loadedCache (gobEncode [(7, 70), (8, 80)])
     [(7, 70), (8, 80)] rfl rfl⟩

/-- Claim C9: `Load()` is atomic on failure — a backend read error or a
decode error is returned verbatim and the cache (its mapping included) is
exactly what it was; in particular with the default `Discard` backend
`Load()` always fails with the "not implemented" error and changes
nothing. -/
theorem yagc_C9_load_atomic_on_failure {K V B : Type} (c : Cache K V B) :
    (∀ e, c.backend.Read = .error e → c.Load = (.error e, c)) ∧
    (∀ data e, c.backend.Read = .ok data → c.decode data = .error e →
      c.Load = (.error e, c)) ∧
    (c.backend = .Discard → c.Load = (.error "not implemented", c)) := by
  refine ⟨?_, ?_, ?_⟩
  · intro e h
    simp only [Cache.Load, Cache.loadNoLock, h]
  · intro data e h1 h2
    simp only [Cache.Load, Cache.loadNoLock, h1, h2]
  · intro h
    simp only [Cache.Load, Cache.loadNoLock, h, Backend.Read]

/-- Witness for C9: `discardCache`, built on the default `Discard`
backend. -/
theorem yagc_C9_witness :
    discardCache.backend = Backend.Discard ∧
    discardCache.Load = (.error "not implemented", discardCache) :=
  ⟨rfl, (yagc_C9_load_atomic_on_failure discardCache).2.2 rfl⟩

theorem gobDecodeLoop_spec (s : List (Nat × Nat)) (r : List Nat) :
    gobDecodeLoop s.length (s.foldr (fun p acc => p.1 :: p.2 :: acc) r) =
      some (s, r) := by
  induction s with
  | nil => rfl
  | cons hd tl ih =>
    obtain ⟨k, v⟩ := hd
    simp [gobDecodeLoop, ih]

/-- Claim C8: round-trip fidelity of the chosen encoding — for every
mapping (here any association list of `Nat` pairs, all representable in the
self-describing binary format), decoding the encoding reconstructs the
mapping exactly. -/
theorem yagc_C8_roundtrip (s : List (Nat × Nat)) :
    gobDecode (gobEncode s) = .ok s := by
  have h := gobDecodeLoop_spec s []
  simp only [gobEncode, gobDecode, h]

theorem pull_fold_lookup {K V B : Type} [DecidableEq K] [Inhabited V]
    (o : Cache K V B) (ks : List K) (c : Cache K V B) (k : K)
    (hks : ∀ k', k' ∈ ks → mapGet o.store k' ≠ none) :
    mapGet ((ks.foldl (fun acc k0 => (acc.Put k0 (o.Get k0).1).2) c).store) k =
      (match mapGet c.store k with
       | some v => some v
       | none => if k ∈ ks then mapGet o.store k else none) := by
  revert hks
  induction ks generalizing c with
  | nil =>
    intro _
    rcases h : mapGet c.store k with _ | v <;> simp [h]
  | cons a tl ih =>
    intro hks
    have ha : mapGet o.store a ≠ none := hks a (List.mem_cons_self a tl)
    have htl : ∀ k', k' ∈ tl → mapGet o.store k' ≠ none := fun k' hk' =>
      hks k' (List.mem_cons_of_mem a hk')
    rw [List.foldl_cons, ih ((c.Put a (o.Get a).1).2) htl]
    rcases hca : mapGet c.store a with _ | w
    · have h2 := (Put_of_absent c a (o.Get a).1 hca).2.1
      rw [h2]
      by_cases hak : a = k
      · subst hak
        rw [mapGet_mapPut, if_pos rfl]
        rcases ho : mapGet o.store a with _ | w2
        · exact absurd ho ha
        · have hv : (o.Get a).1 = w2 := by simp [Cache.Get, mapGetD, ho]
          rw [hv, hca]
          simp [ho]
      · rw [mapGet_mapPut, if_neg hak]
        rcases hck : mapGet c.store k with _ | w3
        · simp only [hck]
          have hmem : (k ∈ a :: tl) ↔ (k ∈ tl) := by
            constructor
            · intro hh
              rcases List.mem_cons.mp hh with h | h
              · exact absurd h.symm hak
              · exact h
            · exact fun hh => List.mem_cons_of_mem a hh
          by_cases hk : k ∈ tl
          · rw [if_pos hk, if_pos (hmem.mpr hk)]
          · rw [if_neg hk, if_neg (fun hh => hk (hmem.mp hh))]
        · simp only [hck]
    · rw [Put_of_present c a (o.Get a).1 w hca]
      rcases hck : mapGet c.store k with _ | w3
      · simp only [hck]
        by_cases hak : a = k
        · subst hak
          rw [hca] at hck
          cases hck
        · have hmem : (k ∈ a :: tl) ↔ (k ∈ tl) := by
            constructor
            · intro hh
              rcases List.mem_cons.mp hh with h | h
              · exact absurd h.symm hak
              · exact h
            · exact fun hh => List.mem_cons_of_mem a hh
          by_cases hk : k ∈ tl
          · rw [if_pos hk, if_pos (hmem.mpr hk)]
          · rw [if_neg hk, if_neg (fun hh => hk (hmem.mp hh))]
      · simp only [hck]

/-- Claim C5: `Pull(other)` and `Merge(other)` both fail with the invalid
source error ("invalid cache") and change nothing when `other` is nil; on a
non-nil `other` both succeed with no error, behave identically, and copy
every key of `other` into this cache with `Put` semantics: a key already in
this cache keeps its value, a key only in `other` is imported with `other`'s
value. -/
theorem yagc_C5_pull_merge_semantics {K V B : Type} [DecidableEq K]
    [Inhabited V] (c o : Cache K V B) (k : K) :
    c.Pull none = (.error "invalid cache", c) ∧
    c.Merge none = (.error "invalid cache", c) ∧
    (c.Pull (some o)).1 = .ok () ∧
    c.Merge (some o) = c.Pull (some o) ∧
    mapGet ((c.Pull (some o)).2).store k =
      (match mapGet c.store k with
       | some v => some v
       | none => mapGet o.store k) := by
  refine ⟨rfl, rfl, rfl, rfl, ?_⟩
  show mapGet
      ((Cache.Keys o).foldl (fun acc k0 => (acc.Put k0 (o.Get k0).1).2)
        c).store k = _
  have hks : ∀ k', k' ∈ o.Keys → mapGet o.store k' ≠ none := by
    intro k' hk' hnone
    exact ((mapGet_eq_none_iff o.store k').mp hnone) hk'
  rw [pull_fold_lookup o o.Keys c k hks]
  rcases hck : mapGet c.store k with _ | v
  · simp only [hck]
    by_cases hk : k ∈ o.Keys
    · rw [if_pos hk]
    · rw [if_neg hk]
      have hnone : mapGet o.store k = none :=
        (mapGet_eq_none_iff o.store k).mpr hk
      rw [hnone]
  · simp only [hck]
